import Mathlib

/-!
Verification development for the GoSSG static-site generator.

The Go sources (core/project.go, core/builder.go, core/engine.go) are embedded
shallowly: Go strings are modelled as Lean `String`/`List Char` (the content in
all claims is ASCII), the filesystem is an explicit association list from
absolute paths to file contents, and fallible Go functions return `Except`.
Library collaborators that the claims do not inspect internally (the markdown
renderer, html/template execution) are passed in as function parameters.

Modelling notes, fixed throughout:
 * `strings.ToLower` is modelled by ASCII case folding (the spec explicitly
   requires no locale sensitivity beyond ASCII case folding, and every
   character class involved is ASCII).
 * `yaml.Marshal`/`yaml.Unmarshal` of the two-field front-matter struct are
   modelled on the subset of YAML the generator itself emits: one
   `key: value` line per field, plain (unquoted) scalar values, unknown keys
   ignored, blank lines skipped.  Theorems whose truth depends on the yaml
   round trip carry hypotheses confining the inputs to this plain-scalar
   subset.  `time.Time` values are represented by their RFC3339 renderings.
-/

set_option maxRecDepth 10000

namespace GoSSG

/-! ### Character classes (ASCII models of the Go predicates involved) -/

/-- Model of the whitespace set recognised by `strings.TrimSpace` (ASCII part:
space, tab, newline, vertical tab, form feed, carriage return). -/
def isWsChar (c : Char) : Bool :=
  c.toNat == 32 || c.toNat == 9 || c.toNat == 10 || c.toNat == 11 ||
  c.toNat == 12 || c.toNat == 13

/-- ASCII model of `strings.ToLower`. -/
def toLowerGo (c : Char) : Char :=
  if 65 ≤ c.toNat ∧ c.toNat ≤ 90 then Char.ofNat (c.toNat + 32) else c

/-- The character class `[a-z0-9-]` of the slug regexp in `slugify`
(core/project.go). -/
def isSlugChar (c : Char) : Bool :=
  (97 ≤ c.toNat && c.toNat ≤ 122) || (48 ≤ c.toNat && c.toNat ≤ 57) ||
  c.toNat == 45

/-! ### Generic trimming helpers (models of `strings.Trim*`) -/

/-- Trim characters satisfying `p` from both ends of a character list
(model of `strings.Trim` / `strings.TrimSpace` for a predicate cutset). -/
def trimBy (p : Char → Bool) (l : List Char) : List Char :=
  ((l.dropWhile p).reverse.dropWhile p).reverse

/-- Model of `strings.TrimSpace` on character lists. -/
def trimSpaceL (l : List Char) : List Char := trimBy isWsChar l

/-- Model of `strings.Trim(s, "-")` on character lists. -/
def trimDashL (l : List Char) : List Char := trimBy (fun c => c == '-') l

/-! ### slugify (core/project.go lines 276-282)

```go
func slugify(title string) string {
    slug := strings.ToLower(title)
    reg := regexp.MustCompile("[^a-z0-9-]+")
    slug = reg.ReplaceAllString(slug, "-")
    slug = strings.Trim(slug, "-")
    return slug
}
```

`ReplaceAllString` with pattern `[^a-z0-9-]+` replaces each maximal run of
characters outside the class with a single `'-'` (leftmost-longest matching).
`replaceRuns` models this as a left-to-right scan carrying a flag recording
whether the scan is currently inside a run of characters outside the class:
the first character of each such run emits one dash, the rest are dropped. -/
def replaceRuns (inRun : Bool) : List Char → List Char
  | [] => []
  | c :: cs =>
    if isSlugChar c then c :: replaceRuns false cs
    else if inRun then replaceRuns true cs
    else '-' :: replaceRuns true cs

/-- Model of the Go `slugify` on character lists. -/
def slugifyL (l : List Char) : List Char :=
  trimDashL (replaceRuns false (l.map toLowerGo))

/-- Model of the Go `slugify` (core/project.go). -/
def slugify (s : String) : String := String.mk (slugifyL s.data)

/-- Reference formulation of the spec algorithm (§4.3), phrased the way the
spec says it: on meeting a character outside `[a-z0-9-]`, emit a single dash
and skip the whole maximal run of such characters (`dropWhile`). -/
def collapseRuns : List Char → List Char
  | [] => []
  | c :: cs =>
    if isSlugChar c then c :: collapseRuns cs
    else '-' :: collapseRuns (cs.dropWhile (fun x => !isSlugChar x))
termination_by l => l.length
decreasing_by
  · simp only [List.length_cons]; omega
  · have h : (cs.dropWhile (fun x => !isSlugChar x)).length ≤ cs.length :=
      (List.dropWhile_sublist _).length_le
    simp only [List.length_cons]; omega

/-- Reference slug algorithm from the spec (§4.3): lower-case, replace each
maximal run outside `[a-z0-9-]` by one dash, trim dashes at both ends. -/
def slugifyRef (s : String) : String :=
  String.mk (trimDashL (collapseRuns (s.data.map toLowerGo)))

lemma replaceRuns_true_eq (l : List Char) :
    replaceRuns true l = replaceRuns false (l.dropWhile (fun x => !isSlugChar x)) := by
  induction l with
  | nil => rfl
  | cons c cs ih =>
    by_cases h : isSlugChar c
    · simp [replaceRuns, h, List.dropWhile_cons]
    · simp [replaceRuns, h, List.dropWhile_cons, ih]

lemma collapseRuns_eq_replaceRuns (l : List Char) :
    collapseRuns l = replaceRuns false l := by
  generalize hl : l.length = n
  induction n using Nat.strong_induction_on generalizing l with
  | _ n ih =>
    cases l with
    | nil => rw [collapseRuns]; rfl
    | cons c cs =>
      by_cases h : isSlugChar c
      · rw [collapseRuns, if_pos h, replaceRuns, if_pos h]
        subst hl
        rw [ih cs.length (by simp) cs rfl]
      · rw [collapseRuns, if_neg h, replaceRuns, if_neg h, if_neg (by simp)]
        subst hl
        rw [replaceRuns_true_eq,
          ih _ (Nat.lt_succ_of_le ((List.dropWhile_sublist _).length_le)) _ rfl]

lemma mem_replaceRuns {c : Char} :
    ∀ (b : Bool) (l : List Char), c ∈ replaceRuns b l → isSlugChar c = true := by
  intro b l
  induction l generalizing b with
  | nil => intro h; simp [replaceRuns] at h
  | cons a cs ih =>
    intro h
    by_cases ha : isSlugChar a
    · rw [replaceRuns, if_pos ha] at h
      rcases List.mem_cons.mp h with h | h
      · exact h ▸ ha
      · exact ih false h
    · rw [replaceRuns, if_neg ha] at h
      by_cases hb : b
      · rw [if_pos hb] at h; exact ih true h
      · rw [if_neg hb] at h
        rcases List.mem_cons.mp h with h | h
        · subst h; rfl
        · exact ih true h

lemma mem_trimBy {p : Char → Bool} {c : Char} {l : List Char}
    (h : c ∈ trimBy p l) : c ∈ l := by
  unfold trimBy at h
  rw [List.mem_reverse] at h
  have h1 := (List.dropWhile_sublist p).mem h
  rw [List.mem_reverse] at h1
  exact (List.dropWhile_sublist p).mem h1

lemma dropWhile_head_false (p : Char → Bool) :
    ∀ {l : List Char} {c : Char} {cs : List Char},
      l.dropWhile p = c :: cs → p c = false := by
  intro l
  induction l with
  | nil => intro c cs h; simp at h
  | cons a t ih =>
    intro c cs h
    rw [List.dropWhile_cons] at h
    by_cases ha : p a
    · rw [if_pos ha] at h; exact ih h
    · rw [if_neg ha] at h
      cases h; simpa using ha

lemma dropWhile_eq_self_of_head {p : Char → Bool} {l : List Char}
    (h : ∀ c cs, l = c :: cs → p c = false) : l.dropWhile p = l := by
  cases l with
  | nil => rfl
  | cons c cs => rw [List.dropWhile_cons, if_neg (by simp [h c cs rfl])]

/-- Every character of the slugify output lies in `[a-z0-9-]`. -/
lemma mem_slugifyL {c : Char} {l : List Char} (h : c ∈ slugifyL l) :
    isSlugChar c = true := by
  unfold slugifyL trimDashL at h
  exact mem_replaceRuns _ _ (mem_trimBy h)

/-- The slugify output does not start with a dash. -/
lemma slugifyL_head {l c : _} {cs : List Char} (h : slugifyL l = c :: cs) :
    (c == '-') = false := by
  unfold slugifyL trimDashL trimBy at h
  set p : Char → Bool := fun c => c == '-' with hp
  set X := replaceRuns false (l.map toLowerGo) with hX
  set B := (X.dropWhile p).reverse.dropWhile p with hB
  have hBne : B ≠ [] := by
    intro h0; rw [h0] at h; simp at h
  have h1 : B.reverse.head? = some c := by rw [h]; rfl
  rw [List.head?_reverse] at h1
  have h2 : B.getLast? = (X.dropWhile p).reverse.getLast? := by
    obtain ⟨t, ht⟩ : B <:+ (X.dropWhile p).reverse := hB ▸ List.dropWhile_suffix p
    rw [← ht, List.getLast?_append]
    cases hBl : B.getLast? with
    | none => exact absurd (List.getLast?_eq_none_iff.mp hBl) hBne
    | some x => rfl
  rw [h2, List.getLast?_reverse] at h1
  cases hdw : X.dropWhile p with
  | nil => rw [hdw] at h1; simp at h1
  | cons d ds =>
    rw [hdw] at h1
    simp only [List.head?_cons, Option.some.injEq] at h1
    subst h1
    have hd := dropWhile_head_false p hdw
    simpa [hp] using hd

/-- The slugify output does not end with a dash. -/
lemma slugifyL_last {l : List Char} {c : Char}
    (h : (slugifyL l).getLast? = some c) : (c == '-') = false := by
  unfold slugifyL trimDashL trimBy at h
  rw [List.getLast?_reverse] at h
  cases hdw : ((replaceRuns false (l.map toLowerGo)).dropWhile (fun c => c == '-')).reverse.dropWhile
      (fun c => c == '-') with
  | nil => rw [hdw] at h; simp at h
  | cons d ds =>
    rw [hdw] at h
    simp only [List.head?_cons, Option.some.injEq] at h
    subst h
    have hd := dropWhile_head_false (fun c => c == '-') hdw
    simpa using hd

lemma toLowerGo_eq_self_of_slug {c : Char} (h : isSlugChar c = true) :
    toLowerGo c = c := by
  unfold toLowerGo
  unfold isSlugChar at h
  rw [if_neg]
  simp only [Bool.or_eq_true, Bool.and_eq_true, decide_eq_true_eq, beq_iff_eq] at h
  omega

lemma replaceRuns_eq_self (l : List Char) (h : ∀ c ∈ l, isSlugChar c = true) :
    replaceRuns false l = l := by
  induction l with
  | nil => rfl
  | cons c cs ih =>
    rw [replaceRuns, if_pos (h c (List.mem_cons_self c cs))]
    rw [ih (fun x hx => h x (List.mem_cons_of_mem c hx))]

lemma trimBy_eq_self {p : Char → Bool} {l : List Char}
    (h1 : ∀ c cs, l = c :: cs → p c = false)
    (h2 : ∀ c, l.getLast? = some c → p c = false) :
    trimBy p l = l := by
  unfold trimBy
  rw [dropWhile_eq_self_of_head h1]
  rw [dropWhile_eq_self_of_head (fun c cs hc => by
    have : l.reverse.head? = some c := by rw [hc]; rfl
    rw [List.head?_reverse] at this
    exact h2 c this)]
  exact l.reverse_reverse

/-- Idempotence for the list-level slugify. -/
lemma slugifyL_idem (l : List Char) : slugifyL (slugifyL l) = slugifyL l := by
  have hmem : ∀ c ∈ slugifyL l, isSlugChar c = true := fun c hc => mem_slugifyL hc
  conv_lhs => rw [slugifyL]
  have hmap : (slugifyL l).map toLowerGo = slugifyL l := by
    rw [show (slugifyL l).map toLowerGo =
        (slugifyL l).map id from
      List.map_congr_left (fun a ha => toLowerGo_eq_self_of_slug (hmem a ha))]
    exact List.map_id _
  rw [hmap, replaceRuns_eq_self _ hmem]
  exact trimBy_eq_self
    (fun c cs hc => slugifyL_head hc)
    (fun c hc => slugifyL_last hc)

/-- C8: slugify equals the reference algorithm of the spec — lower-case the
title, replace every maximal run of characters outside `[a-z0-9-]` with a
single dash, trim leading and trailing dashes — with the spec's two examples,
and slugify is idempotent on every title. -/
theorem slugify_matches_reference_and_idempotent :
    (∀ x : String, slugify x = slugifyRef x) ∧
    slugify "My Post!" = "my-post" ∧
    slugify "   " = "" ∧
    (∀ x : String, slugify (slugify x) = slugify x) := by
  refine ⟨fun x => ?_, by decide, by decide, fun x => ?_⟩
  · unfold slugify slugifyRef slugifyL
    rw [collapseRuns_eq_replaceRuns]
  · show String.mk (slugifyL (String.mk (slugifyL x.data)).data) = String.mk (slugifyL x.data)
    exact congrArg String.mk (slugifyL_idem x.data)

/-! ### Splitting on the front-matter delimiter

`strings.SplitN(content, "---", 3)` (core/project.go line 214 and
core/builder.go line 104) splits around the first two non-overlapping
occurrences of the literal `"---"`, scanning left to right. -/

/-- The delimiter `"---"` as a character list. -/
def sepChars : List Char := ['-', '-', '-']

/-- Split a list at the first occurrence of `sepChars`: returns the part
before the occurrence and the part after it, or `none` when the delimiter
does not occur. -/
def splitOnce : List Char → Option (List Char × List Char)
  | [] => none
  | c :: cs =>
    if sepChars.isPrefixOf (c :: cs) then some ([], (c :: cs).drop 3)
    else
      match splitOnce cs with
      | none => none
      | some (a, b) => some (c :: a, b)

/-- Model of `strings.SplitN(l, "---", 3)`. -/
def splitN3 (l : List Char) : List (List Char) :=
  match splitOnce l with
  | none => [l]
  | some (a, r) =>
    match splitOnce r with
    | none => [a, r]
    | some (b, r2) => [a, b, r2]

/-- The number of non-overlapping left-to-right occurrences of `"---"`,
counted up to two (the only range the three-way split can distinguish). -/
def sepCount2 (l : List Char) : Nat :=
  match splitOnce l with
  | none => 0
  | some (_, r) =>
    match splitOnce r with
    | none => 1
    | some _ => 2

/-- Whether `sepChars` occurs as a contiguous substring. -/
def containsSep : List Char → Bool
  | [] => false
  | c :: cs => sepChars.isPrefixOf (c :: cs) || containsSep cs

/-- No occurrence of the delimiter starts strictly inside `l` when `l` is
immediately followed by the delimiter.  This is the exact condition under
which the split finds the appended delimiter first. -/
def cleanBefore (l : List Char) : Prop :=
  ∀ i, i < l.length → ¬ (sepChars.isPrefixOf (l.drop i ++ sepChars) = true)

instance (l : List Char) : Decidable (cleanBefore l) := by
  unfold cleanBefore; infer_instance

lemma splitOnce_decomp :
    ∀ {l a b : List Char}, splitOnce l = some (a, b) → l = a ++ sepChars ++ b := by
  intro l
  induction l with
  | nil => intro a b h; simp [splitOnce] at h
  | cons c cs ih =>
    intro a b h
    rw [splitOnce] at h
    by_cases hp : sepChars.isPrefixOf (c :: cs)
    · rw [if_pos hp] at h
      simp only [Option.some.injEq, Prod.mk.injEq] at h
      obtain ⟨t, ht⟩ := List.isPrefixOf_iff_prefix.mp hp
      have hd : (c :: cs).drop 3 = t := by
        rw [← ht]
        exact List.drop_left sepChars t
      rw [← h.1, ← h.2, hd, List.nil_append, ht]
    · rw [if_neg hp] at h
      cases hs : splitOnce cs with
      | none => rw [hs] at h; simp at h
      | some p =>
        rw [hs] at h
        cases p with
        | mk a' b' =>
          simp only [Option.some.injEq, Prod.mk.injEq] at h
          rw [← h.1, ← h.2]
          have := ih hs
          simp [this]

lemma isPrefixOf_append_elim {s t u : List Char} (hle : s.length ≤ t.length) :
    s.isPrefixOf (t ++ u) = s.isPrefixOf t := by
  by_cases h : s <+: t
  · rw [List.isPrefixOf_iff_prefix.mpr h,
      List.isPrefixOf_iff_prefix.mpr (h.trans (t.prefix_append u))]
  · have h2 : ¬ s <+: (t ++ u) := by
      intro hc
      apply h
      rw [List.prefix_iff_eq_take] at hc ⊢
      rwa [List.take_append_of_le_length hle] at hc
    rw [← List.isPrefixOf_iff_prefix, Bool.not_eq_true] at h h2
    rw [h, h2]

lemma splitOnce_sep (l : List Char) : splitOnce (sepChars ++ l) = some ([], l) := by
  have hp : sepChars.isPrefixOf ('-' :: ('-' :: '-' :: l)) = true :=
    List.isPrefixOf_iff_prefix.mpr ⟨l, rfl⟩
  show splitOnce ('-' :: ('-' :: '-' :: l)) = some ([], l)
  rw [splitOnce, if_pos hp]
  rfl

lemma splitOnce_append {l1 : List Char} (l2 : List Char) (h : cleanBefore l1) :
    splitOnce (l1 ++ sepChars ++ l2) = some (l1, l2) := by
  induction l1 with
  | nil => simpa using splitOnce_sep l2
  | cons c cs ih =>
    have hnp : sepChars.isPrefixOf (c :: (cs ++ sepChars ++ l2)) = false := by
      show sepChars.isPrefixOf (((c :: cs) ++ sepChars) ++ l2) = false
      rw [isPrefixOf_append_elim (by simp [sepChars])]
      have h0 := h 0 (by simp)
      rw [List.drop_zero] at h0
      simpa only [Bool.not_eq_true] using h0
    have hcs : cleanBefore cs := by
      intro i hi
      have := h (i + 1) (by simpa using Nat.succ_lt_succ hi)
      simpa using this
    show splitOnce (c :: (cs ++ sepChars ++ l2)) = some (c :: cs, l2)
    rw [splitOnce, if_neg (by simp only [hnp]; exact Bool.false_ne_true)]
    rw [ih hcs]

lemma containsSep_of_drop :
    ∀ {y : List Char} {i : Nat}, sepChars.isPrefixOf (y.drop i) = true →
      containsSep y = true := by
  intro y
  induction y with
  | nil => intro i h; simp [sepChars] at h
  | cons c cs ih =>
    intro i h
    cases i with
    | zero =>
      rw [List.drop_zero] at h
      rw [containsSep, h, Bool.true_or]
    | succ j =>
      rw [List.drop_succ_cons] at h
      rw [containsSep, ih h, Bool.or_true]

lemma take_sep_eq_take_dd {k : Nat} (hk : k ≤ 2) :
    sepChars.take k = ['-', '-'].take k := by
  interval_cases k <;> rfl

/-- Sufficient condition for `cleanBefore`: the delimiter does not occur in
`l` extended by two more dashes (the two dashes cover occurrences that
straddle the end of `l` and the following delimiter). -/
lemma cleanBefore_of_no_sub {l : List Char}
    (h : containsSep (l ++ ['-', '-']) = false) : cleanBefore l := by
  intro i hi hpre
  have hxlen : 1 ≤ (l.drop i).length := by
    rw [List.length_drop]
    omega
  have hpre2 : sepChars.isPrefixOf (l.drop i ++ ['-', '-']) = true := by
    have hp1 := List.isPrefixOf_iff_prefix.mp hpre
    rw [List.prefix_iff_eq_take] at hp1
    apply List.isPrefixOf_iff_prefix.mpr
    rw [List.prefix_iff_eq_take]
    rw [List.take_append_eq_append_take] at hp1 ⊢
    rw [← take_sep_eq_take_dd (by simp [sepChars]; omega)]
    exact hp1
  have hdrop : (l ++ ['-', '-']).drop i = l.drop i ++ ['-', '-'] :=
    List.drop_append_of_le_length (le_of_lt hi)
  have := containsSep_of_drop (hdrop ▸ hpre2)
  rw [h] at this
  exact Bool.false_ne_true this

lemma splitN3_append {l1 m r : List Char} (h1 : cleanBefore l1) (h2 : cleanBefore m) :
    splitN3 (l1 ++ sepChars ++ (m ++ sepChars ++ r)) = [l1, m, r] := by
  have e1 := splitOnce_append (m ++ sepChars ++ r) h1
  have e2 := splitOnce_append r h2
  simp only [splitN3, e1, e2]

/-! ### Single-character splitting (models of `strings.Split` on one-character
separators, used for splitting paths on `'/'` and yaml blocks on newlines) -/

def firstSplit (ch : Char) : List Char → Option (List Char × List Char)
  | [] => none
  | c :: cs =>
    if c == ch then some ([], cs)
    else
      match firstSplit ch cs with
      | none => none
      | some (a, b) => some (c :: a, b)

lemma firstSplit_append (ch : Char) {a : List Char} (b : List Char) (h : ch ∉ a) :
    firstSplit ch (a ++ ch :: b) = some (a, b) := by
  induction a with
  | nil => simp [firstSplit]
  | cons c t ih =>
    have hne : ¬ (ch = c ∨ ch ∈ t) := by simpa using h
    have hc : (c == ch) = false := by
      simp only [beq_eq_false_iff_ne, ne_eq]
      intro hcc
      exact hne (Or.inl hcc.symm)
    show firstSplit ch (c :: (t ++ ch :: b)) = some (c :: t, b)
    rw [firstSplit, if_neg (by simp [hc])]
    rw [ih (fun hm => hne (Or.inr hm))]

def splitChar (ch : Char) : List Char → List (List Char)
  | [] => [[]]
  | c :: cs =>
    if c == ch then [] :: splitChar ch cs
    else
      match splitChar ch cs with
      | [] => [[c]]
      | g :: gs => (c :: g) :: gs

lemma splitChar_ne_nil (ch : Char) (l : List Char) : splitChar ch l ≠ [] := by
  cases l with
  | nil => simp [splitChar]
  | cons c cs =>
    rw [splitChar]
    by_cases h : (c == ch)
    · simp [h]
    · rw [if_neg h]
      cases splitChar ch cs <;> simp

lemma splitChar_no {ch : Char} {l : List Char} (h : ch ∉ l) : splitChar ch l = [l] := by
  induction l with
  | nil => rfl
  | cons c cs ih =>
    have hne : ¬ (ch = c ∨ ch ∈ cs) := by simpa using h
    have hc : (c == ch) = false := by
      simp only [beq_eq_false_iff_ne, ne_eq]
      intro hcc
      exact hne (Or.inl hcc.symm)
    rw [splitChar, if_neg (by simp [hc]), ih (fun hm => hne (Or.inr hm))]

lemma splitChar_append (ch : Char) {a : List Char} (b : List Char) (h : ch ∉ a) :
    splitChar ch (a ++ ch :: b) = a :: splitChar ch b := by
  induction a with
  | nil => simp [splitChar]
  | cons c t ih =>
    have hne : ¬ (ch = c ∨ ch ∈ t) := by simpa using h
    have hc : (c == ch) = false := by
      simp only [beq_eq_false_iff_ne, ne_eq]
      intro hcc
      exact hne (Or.inl hcc.symm)
    show splitChar ch (c :: (t ++ ch :: b)) = (c :: t) :: splitChar ch b
    rw [splitChar, if_neg (by simp [hc]), ih (fun hm => hne (Or.inr hm))]

/-! ### Front matter (core/project.go lines 194-206, 261-274)

```go
type ArticleFrontMatter struct {
    Title string    `yaml:"title"`
    Date  time.Time `yaml:"date"`
}
```

`Date` is represented by the RFC3339 string `yaml.v3` uses for a `time.Time`.
`yaml.Marshal` of this struct emits exactly one `title: <scalar>` line and one
`date: <scalar>` line (plain scalars, in struct order); `yaml.Unmarshal` reads
`key: value` lines, ignores unknown keys, skips blank lines, and leaves absent
fields at their zero values.  The model below implements this emitted subset;
theorems that rely on it restrict their inputs to plain scalars. -/

structure ArticleFrontMatter where
  title : String
  date : String
deriving DecidableEq

structure Article where
  frontMatter : ArticleFrontMatter
  body : String
  filePath : String
deriving DecidableEq

/-- Model of `yaml.Marshal(&article.FrontMatter)` on the plain-scalar subset. -/
def marshalFM (fm : ArticleFrontMatter) : String :=
  "title: " ++ fm.title ++ "\ndate: " ++ fm.date ++ "\n"

/-- One line of `yaml.Unmarshal` into the fixed Article schema: a blank line
is skipped, `key: value` sets the matching field (unknown keys ignored), and
anything else is a yaml error. -/
def applyFMLine (fm : ArticleFrontMatter) (l : List Char) : Except String ArticleFrontMatter :=
  if l.all isWsChar then .ok fm
  else
    match firstSplit ':' l with
    | none => .error "yaml: could not find expected key"
    | some (k, v) =>
      if k = "title".data then .ok { fm with title := String.mk (trimSpaceL v) }
      else if k = "date".data then .ok { fm with date := String.mk (trimSpaceL v) }
      else .ok fm

/-- Model of `yaml.Unmarshal([]byte(block), &article.FrontMatter)`. -/
def unmarshalFM (l : List Char) : Except String ArticleFrontMatter :=
  (splitChar '\n' l).foldlM applyFMLine ⟨"", ""⟩

/-- One line of `yaml.Unmarshal` into a generic `map[string]interface{}`
(core/builder.go line 113): collects every `key: value` pair. -/
def applyMapLine (m : List (String × String)) (l : List Char) :
    Except String (List (String × String)) :=
  if l.all isWsChar then .ok m
  else
    match firstSplit ':' l with
    | none => .error "yaml: could not find expected key"
    | some (k, v) => .ok (m ++ [(String.mk k, String.mk (trimSpaceL v))])

/-- Model of `yaml.Unmarshal([]byte(block), &page.FrontMatter)` for the
generic mapping used by the builder. -/
def unmarshalMap (l : List Char) : Except String (List (String × String)) :=
  (splitChar '\n' l).foldlM applyMapLine []

/-! ### Path handling (`path/filepath` on slash-separated paths)

`filepath.Join` joins the non-empty elements with `'/'` and applies
`filepath.Clean`; `Clean` resolves `.` and `..` segments lexically (for a
rooted path, `..` at the root is dropped; for a relative path, leading `..`
segments are kept). -/

/-- One step of the lexical cleaning fold.  `acc` holds the output segments in
reverse order. -/
def cleanStep (abs : Bool) (acc : List (List Char)) (c : List Char) : List (List Char) :=
  if c = [] ∨ c = ['.'] then acc
  else if c = ['.', '.'] then
    match acc with
    | [] => if abs then [] else [['.', '.']]
    | a :: rest => if a = ['.', '.'] then c :: acc else rest
  else c :: acc

/-- Model of `filepath.Clean` on character lists. -/
def goCleanL (l : List Char) : List Char :=
  let abs : Bool :=
    match l with
    | c :: _ => c == '/'
    | [] => false
  let segs := ((splitChar '/' l).foldl (cleanStep abs) []).reverse
  let core := List.intercalate ['/'] segs
  if segs = [] then (if abs then ['/'] else ['.'])
  else (if abs then '/' :: core else core)

/-- Model of `filepath.Join` (joins non-empty elements with `'/'`, then
cleans; `Join()` of all-empty elements is `""`). -/
def goJoinList (ps : List String) : String :=
  let es := ps.filter (fun s => !(s == ""))
  if es = [] then ""
  else String.mk (goCleanL (List.intercalate ['/'] (es.map String.data)))

def goJoin2 (a b : String) : String := goJoinList [a, b]

def goJoin3 (a b c : String) : String := goJoinList [a, b, c]

/-- Model of `filepath.Base`. -/
def goBase (s : String) : String :=
  if s.data = [] then "."
  else
    let l1 := (s.data.reverse.dropWhile (fun c => c == '/')).reverse
    if l1 = [] then "/"
    else String.mk (l1.reverse.takeWhile (fun c => !(c == '/'))).reverse

/-- Model of `filepath.Dir`: everything up to and including the final
separator, cleaned. -/
def goDir (s : String) : String :=
  String.mk (goCleanL (s.data.reverse.dropWhile (fun c => !(c == '/'))).reverse)

/-- Model of `filepath.Ext`: the suffix of the final element starting at its
last dot (empty when the final element has no dot).  Used only by the
spec-side reading of claim C6 ("base name minus extension"). -/
def goExt (s : String) : String :=
  let r := s.data.reverse.takeWhile (fun c => !(c == '/'))
  if r.any (fun c => c == '.') then
    String.mk ((r.takeWhile (fun c => !(c == '.'))) ++ ['.']).reverse
  else ""

/-- Model of `strings.HasSuffix`. -/
def hasSuffixStr (s suf : String) : Bool := suf.data.isSuffixOf s.data

/-- Model of `strings.TrimSuffix`. -/
def trimSuffixStr (s suf : String) : String :=
  if hasSuffixStr s suf then String.mk (s.data.take (s.data.length - suf.data.length))
  else s

deriving instance DecidableEq for Except

/-! ### The engine model (core/engine.go, core/project.go)

The engine's configuration is the list of registered projects; the claims
never mutate it, so it is passed as a plain list.  The filesystem is an
association list from absolute paths to file contents; `fsWrite` overwrites,
`fsRemove` models `os.Remove` (removing a missing file is a no-op, matching
the ignored error in SaveArticle). -/

structure Proj where
  name : String
  path : String
deriving DecidableEq

/-- Model of `Engine.FindProjectByName` (first project whose name matches). -/
def findProjectByName (ps : List Proj) (n : String) : Option Proj :=
  ps.find? (fun p => p.name == n)

/-- The file store: absolute path ↦ content. -/
abbrev FileMap := List (String × String)

def fsLookup (fs : FileMap) (k : String) : Option String := fs.lookup k

def fsWrite (fs : FileMap) (k v : String) : FileMap :=
  (k, v) :: fs.filter (fun p => !(p.1 == k))

def fsRemove (fs : FileMap) (k : String) : FileMap :=
  fs.filter (fun p => !(p.1 == k))

/-- Model of `Engine.ReadFileContent` (core/project.go lines 130-151):
resolve the project, join its path with `"content"` and the caller-supplied
relative path via `filepath.Join`, and read that file. -/
def readFileContent (ps : List Proj) (fs : FileMap) (projectName filePath : String) :
    Except String String :=
  match findProjectByName ps projectName with
  | none => .error ("project '" ++ projectName ++ "' not found")
  | some project =>
    match fsLookup fs (goJoin3 project.path "content" filePath) with
    | none => .error ("could not read file '" ++ filePath ++ "'")
    | some content => .ok content

/-- Model of `Engine.WriteFileContent` (core/project.go lines 155-179);
`os.MkdirAll` on the parent directory always succeeds in the model. -/
def writeFileContent (ps : List Proj) (fs : FileMap)
    (projectName filePath newContent : String) : Except String FileMap :=
  match findProjectByName ps projectName with
  | none => .error ("project '" ++ projectName ++ "' not found")
  | some project =>
    .ok (fsWrite fs (goJoin3 project.path "content" filePath) newContent)

/-- Model of `Engine.ParseArticleFile` (core/project.go lines 208-226). -/
def parseArticleFile (ps : List Proj) (fs : FileMap) (projectName filePath : String) :
    Except String Article :=
  match readFileContent ps fs projectName filePath with
  | .error e => .error e
  | .ok content =>
    match splitN3 content.data with
    | [_, meta, rest] =>
      match unmarshalFM meta with
      | .error _ => .error ("could not parse front matter for " ++ filePath)
      | .ok fm => .ok ⟨fm, String.mk (trimSpaceL rest), filePath⟩
    | _ => .error ("invalid front matter format in " ++ filePath)

/-- The serialized document `WriteArticleFile` produces (core/project.go
lines 261-274): `"---\n" + yaml + "---\n\n" + body`. -/
def articleContent (a : Article) : String :=
  "---\n" ++ marshalFM a.frontMatter ++ "---\n\n" ++ a.body

/-- Model of `Engine.WriteArticleFile` (core/project.go lines 261-274). -/
def writeArticleFile (ps : List Proj) (fs : FileMap) (projectName : String)
    (a : Article) : Except String FileMap :=
  writeFileContent ps fs projectName a.filePath (articleContent a)

/-- The `finalPath` computation inside `SaveArticle` (core/project.go lines
234-246), factored out verbatim: a new article goes to `posts/<slug>.md`;
otherwise the original slug is the base name with a trailing `".md"`
trimmed, and a differing slug renames within the original's directory. -/
def saveFinalPath (title originalFilePath : String) : String :=
  let newSlug := slugify title
  if originalFilePath = "" then goJoin2 "posts" (newSlug ++ ".md")
  else
    let originalSlug := trimSuffixStr (goBase originalFilePath) ".md"
    if newSlug ≠ originalSlug then
      goJoin2 (goDir originalFilePath) (newSlug ++ ".md")
    else originalFilePath

/-- Model of `Engine.SaveArticle` (core/project.go lines 228-260).  Returns
the Go function's result together with the filesystem after the call.  Note
the delete of the old file renames against `e.config.Projects[0].Path` — the
first project in the configuration — exactly as the Go source does. -/
def saveArticle (ps : List Proj) (fs : FileMap) (projectName : String)
    (articleData : Article) (originalFilePath : String) :
    Except String String × FileMap :=
  let newSlug := slugify articleData.frontMatter.title
  if newSlug = "" then (.error "article title cannot be empty or invalid", fs)
  else
    let finalPath := saveFinalPath articleData.frontMatter.title originalFilePath
    match writeArticleFile ps fs projectName { articleData with filePath := finalPath } with
    | .error e => (.error e, fs)
    | .ok fs1 =>
      if originalFilePath ≠ "" ∧ originalFilePath ≠ finalPath then
        match ps with
        | [] => (.error "panic: index out of range", fs1)
        | p0 :: _ =>
          (.ok finalPath, fsRemove fs1 (goJoin3 p0.path "content" originalFilePath))
      else (.ok finalPath, fs1)

/-! ### The builder model (core/builder.go)

`BuildProject` cleans `public`, parses the theme template once, walks the
content tree dispatching each regular file either to the markdown pipeline or
to a byte-for-byte copy, and finally copies the theme's static assets.  The
markdown renderer (`markdown.ToHTML` with the fixed extension set) and
template execution (`tmpl.Execute`) are library collaborators and are passed
in as function parameters; the walk itself, the `.md` dispatch, the output
path computation and the error plumbing are taken from the source.  Directory
entries of the walk are skipped by the source (`info.IsDir()`), so the walk is
modelled over the regular files below `content`, in walk (lexical) order. -/

structure FS where
  dirs : List String
  files : FileMap
deriving DecidableEq

/-- Whether a path exists in the filesystem (as a directory or a file);
`filepath.Walk` on a missing root hands the walk function the `lstat` error,
which both walk functions in core/builder.go return as-is. -/
def existsPath (fs : FS) (p : String) : Bool :=
  fs.dirs.contains p || fs.files.any (fun e => e.1 == p)

/-- The error text of the failed `lstat` that `filepath.Walk` reports for a
missing root. -/
def lstatError (p : String) : String := "lstat " ++ p ++ ": no such file or directory"

/-- Strip a directory prefix `dir ++ "/"` from an absolute path. -/
def stripDirStr (dir p : String) : Option String :=
  if (dir ++ "/").data.isPrefixOf p.data then
    some (String.mk (p.data.drop (dir ++ "/").data.length))
  else none

/-- The regular files strictly below `dir`, as (relative path, content)
pairs, in file-store order (the model's stand-in for walk order). -/
def filesUnder (fs : FS) (dir : String) : List (String × String) :=
  fs.files.filterMap (fun e =>
    match stripDirStr dir e.1 with
    | some rel => some (rel, e.2)
    | none => none)

/-- Model of `processMarkdownFile` (core/builder.go lines 97-129) on the file
content: split on `"---"`, parse the metadata block as a generic mapping,
render the remainder with the markdown renderer `mdRender`, and execute the
template via `tmplExec` (which may fail, as `tmpl.Execute` may). -/
def processMarkdownFile (mdRender : String → String)
    (tmplExec : List (String × String) → String → Except String String)
    (content : String) : Except String String :=
  match splitN3 content.data with
  | [_, meta, rest] =>
    match unmarshalMap meta with
    | .error _ => .error "failed to parse front matter"
    | .ok fmMap => tmplExec fmMap (mdRender (String.mk rest))
  | _ => .error "invalid front matter"

/-- One walk over the content files (the closure of core/builder.go lines
55-85): a file whose name ends in `.md` is processed and written to the
mirrored path with the extension changed to `.html`; any other file is copied
unchanged; the first error stops the walk — the files after it are not
touched.  Returns the outputs written by the successful steps and the error,
if any. -/
def buildWalk (pmf : String → Except String String) :
    List (String × String) → List (String × String) × Option String
  | [] => ([], none)
  | (p, c) :: rest =>
    if hasSuffixStr (goBase p) ".md" then
      match pmf c with
      | .error e => ([], some e)
      | .ok out =>
        let r := buildWalk pmf rest
        ((trimSuffixStr p ".md" ++ ".html", out) :: r.1, r.2)
    else
      let r := buildWalk pmf rest
      ((p, c) :: r.1, r.2)

/-- Model of `copyStaticAssets` (core/builder.go lines 132-148): a recursive
copy rooted at `src`.  When `src` does not exist, `filepath.Walk` reports the
`lstat` failure to the walk function, whose `if err != nil { return err }`
propagates it. -/
def copyStaticAssets (fs : FS) (src dst : String) : Except String FileMap :=
  if existsPath fs src then
    .ok ((filesUnder fs src).map (fun e => (goJoin2 dst e.1, e.2)))
  else .error (lstatError src)

/-- Model of `Engine.BuildProject` (core/builder.go lines 24-94).  The clean
phase (`os.RemoveAll` + `os.MkdirAll` on `public`) always succeeds in the
model; its effect is that the returned output list is the entire content of
`public` after the build. -/
def buildProject (mdRender : String → String)
    (tmplParse : String → Except String String)
    (tmplExec : String → List (String × String) → String → Except String String)
    (ps : List Proj) (fs : FS) (projectName : String) :
    Except String FileMap :=
  match findProjectByName ps projectName with
  | none => .error ("project '" ++ projectName ++ "' not found")
  | some project =>
    let contentDir := goJoin2 project.path "content"
    let publicDir := goJoin2 project.path "public"
    let themeDir := goJoin3 project.path "themes" "default"
    let templatePath := goJoin3 themeDir "templates" "page.html"
    match fsLookup fs.files templatePath with
    | none => .error ("could not parse page template '" ++ templatePath ++ "'")
    | some tsrc =>
      match tmplParse tsrc with
      | .error e => .error ("could not parse page template '" ++ templatePath ++ "': " ++ e)
      | .ok tmpl =>
        if existsPath fs contentDir then
          match buildWalk (processMarkdownFile mdRender (tmplExec tmpl))
              (filesUnder fs contentDir) with
          | (_, some e) => .error ("error walking content directory: " ++ e)
          | (outs, none) =>
            match copyStaticAssets fs (goJoin2 themeDir "static") publicDir with
            | .error e => .error e
            | .ok staticOuts =>
              .ok (outs.map (fun o => (goJoin2 publicDir o.1, o.2)) ++ staticOuts)
        else .error ("error walking content directory: " ++ lstatError contentDir)

/-- Claim-side reading of C6's "original filename's slug (base name minus
extension)": the original slug strips the file extension (`filepath.Ext`)
from the base name, whatever that extension is.  This definition follows the
claim's words and is compared against the source model `saveArticle`. -/
def saveFinalPathClaim (title originalFilePath : String) : Option String :=
  let newSlug := slugify title
  if newSlug = "" then none
  else if originalFilePath = "" then some ("posts/" ++ newSlug ++ ".md")
  else
    let base := goBase originalFilePath
    let originalSlug := trimSuffixStr base (goExt base)
    if newSlug ≠ originalSlug then
      some (goJoin2 (goDir originalFilePath) (newSlug ++ ".md"))
    else some originalFilePath

/-! ## Claim theorems -/

/-- C1: the claim that `ReadFileContent`/`WriteFileContent` confine every
caller-supplied relative path to `projectRoot/content` is false — and the
code's own comment asserting that `filepath.Join` "prevents path traversal
attacks" is contradicted by `filepath.Join`'s lexical cleaning: the relative
path `"../../../../etc/passwd"` resolves to `"/etc/passwd"`, outside the
content subtree, and `ReadFileContent` then reads that outside file. -/
theorem readFileContent_escapes_content_subtree :
    goJoin3 "/home/user/proj" "content" "../../../../etc/passwd" = "/etc/passwd" ∧
    ("/home/user/proj/content".data.isPrefixOf "/etc/passwd".data) = false ∧
    readFileContent [⟨"proj", "/home/user/proj"⟩] [("/etc/passwd", "secret")]
      "proj" "../../../../etc/passwd" = .ok "secret" := by
  decide

/-- C2: the claim that a successful renaming `SaveArticle` deletes the old
file from the named project's content directory is false on the code: the
delete is issued against `e.config.Projects[0].Path` (the first configured
project), so renaming an article of the second project "beta" leaves
`beta`'s old file in place (the save itself succeeds and returns the new
path). -/
theorem saveArticle_delete_targets_first_project :
    (saveArticle [⟨"alpha", "/a"⟩, ⟨"beta", "/b"⟩] [("/b/content/posts/old.md", "old")]
        "beta" ⟨⟨"New Title", "2024-01-02T03:04:05Z"⟩, "body", ""⟩ "posts/old.md").1 =
      .ok "posts/new-title.md" ∧
    fsLookup (saveArticle [⟨"alpha", "/a"⟩, ⟨"beta", "/b"⟩]
        [("/b/content/posts/old.md", "old")]
        "beta" ⟨⟨"New Title", "2024-01-02T03:04:05Z"⟩, "body", ""⟩ "posts/old.md").2
      "/b/content/posts/old.md" = some "old" := by
  decide

/-- C3 counterexample: a project whose cleaning, template parsing and content
walk all succeed but whose `themes/default/static` directory is absent makes
`BuildProject` return the static walk's `lstat` error — the missing static
directory is not skipped, contradicting the claim that the build succeeds. -/
theorem buildProject_missing_static_dir_fails :
    buildWalk (processMarkdownFile (fun s => s) (fun _ h => .ok ("T" ++ h)))
      (filesUnder ⟨["/p", "/p/content"],
        [("/p/themes/default/templates/page.html", "T"),
         ("/p/content/hello.md", "---\ntitle: H\n---\nhi")]⟩ "/p/content") =
      ([("hello.html", "T\nhi")], none) ∧
    buildProject (fun s => s) (fun s => .ok s) (fun t _ h => .ok (t ++ h))
      [⟨"p", "/p"⟩]
      ⟨["/p", "/p/content"],
       [("/p/themes/default/templates/page.html", "T"),
        ("/p/content/hello.md", "---\ntitle: H\n---\nhi")]⟩ "p" =
      .error "lstat /p/themes/default/static: no such file or directory" := by
  decide

/-- C4 counterexample: a document whose front matter parses as YAML but lacks
both required Article fields (`title`, `date`) makes `ParseArticleFile`
return a successful `Article` with zero-valued fields (empty title, zero
date), not a `ValidationError` as claimed. -/
theorem parseArticleFile_accepts_missing_title :
    parseArticleFile [⟨"p", "/p"⟩] [("/p/content/a.md", "---\nfoo: 1\n---\nhello")]
      "p" "a.md" = .ok ⟨⟨"", ""⟩, "hello", "a.md"⟩ := by
  decide

/-- C5 counterexample: for the article titled `"a---b"` (whose slug
`"a---b"` is non-empty, so the save succeeds), parsing the file written by
`SaveArticle` back at the returned path yields the front matter
`(title "a", zero date)` and a body beginning with the remains of the
metadata block — not the article's own front matter and body: the serialized
title's `---` is picked up as the closing front-matter delimiter. -/
theorem saveArticle_roundtrip_breaks_on_dashed_title :
    (saveArticle [⟨"p", "/p"⟩] [] "p"
        ⟨⟨"a---b", "2024-01-02T03:04:05Z"⟩, "body text", ""⟩ "") =
      (.ok "posts/a---b.md",
       [("/p/content/posts/a---b.md",
         "---\ntitle: a---b\ndate: 2024-01-02T03:04:05Z\n---\n\nbody text")]) ∧
    parseArticleFile [⟨"p", "/p"⟩]
      [("/p/content/posts/a---b.md",
        "---\ntitle: a---b\ndate: 2024-01-02T03:04:05Z\n---\n\nbody text")]
      "p" "posts/a---b.md" =
      .ok ⟨⟨"a", ""⟩, "b\ndate: 2024-01-02T03:04:05Z\n---\n\nbody text", "posts/a---b.md"⟩ ∧
    ("a" : String) ≠ "a---b" := by
  decide

/-- C6 counterexample: `SaveArticle` computes `originalSlug` by stripping
only a trailing `".md"` — not "the extension" — so for the original path
`"posts/a.markdown"` and a title with slug `"a"` the claim's formula keeps
the file in place at `"posts/a.markdown"` while the code renames it to
`"posts/a.md"`. -/
theorem saveArticle_keeps_non_md_extension :
    (saveArticle [⟨"p", "/p"⟩] [] "p" ⟨⟨"A", "2024-01-02T03:04:05Z"⟩, "b", ""⟩
        "posts/a.markdown").1 = .ok "posts/a.md" ∧
    saveFinalPathClaim "A" "posts/a.markdown" = some "posts/a.markdown" ∧
    ("posts/a.md" : String) ≠ "posts/a.markdown" := by
  decide

lemma splitN3_length_lt_iff (l : List Char) :
    (splitN3 l).length < 3 ↔ sepCount2 l < 2 := by
  cases h1 : splitOnce l with
  | none => simp [splitN3, sepCount2, h1]
  | some p =>
    cases p with
    | mk a r =>
      cases h2 : splitOnce r with
      | none => simp [splitN3, sepCount2, h1, h2]
      | some q => cases q with | mk b r2 => simp [splitN3, sepCount2, h1, h2]

lemma splitN3_decomp {l a m r : List Char} (h : splitN3 l = [a, m, r]) :
    l = a ++ sepChars ++ (m ++ sepChars ++ r) := by
  cases h1 : splitOnce l with
  | none => simp only [splitN3, h1] at h; simp at h
  | some p =>
    cases p with
    | mk a' r' =>
      cases h2 : splitOnce r' with
      | none => simp only [splitN3, h1, h2] at h; simp at h
      | some q =>
        cases q with
        | mk b' r2 =>
          simp only [splitN3, h1, h2] at h
          simp only [List.cons.injEq, and_true] at h
          obtain ⟨ha, hb, hr⟩ := h
          subst ha hb hr
          have d1 := splitOnce_decomp h1
          have d2 := splitOnce_decomp h2
          rw [d1, d2]

/-- C7: for text containing fewer than two (non-overlapping, left-to-right)
occurrences of `"---"`, the three-way split yields fewer than three segments
and both document parses fail with the malformed-front-matter error; on
success the returned body is the remainder after the second delimiter with
surrounding whitespace trimmed. -/
theorem parseArticleFile_requires_two_delimiters
    (ps : List Proj) (fs : FileMap) (projectName filePath content : String)
    (hread : readFileContent ps fs projectName filePath = .ok content) :
    (sepCount2 content.data < 2 ↔ (splitN3 content.data).length < 3) ∧
    ((splitN3 content.data).length < 3 →
      parseArticleFile ps fs projectName filePath =
        .error ("invalid front matter format in " ++ filePath)) ∧
    (∀ md te, (splitN3 content.data).length < 3 →
      processMarkdownFile md te content = .error "invalid front matter") ∧
    (∀ a m r, splitN3 content.data = [a, m, r] →
      content.data = a ++ sepChars ++ (m ++ sepChars ++ r)) ∧
    (∀ art, parseArticleFile ps fs projectName filePath = .ok art →
      ∃ a m r, splitN3 content.data = [a, m, r] ∧
        art.body = String.mk (trimSpaceL r)) := by
  refine ⟨(splitN3_length_lt_iff content.data).symm, ?_, ?_,
    fun a m r h => splitN3_decomp h, ?_⟩
  · intro hlt
    cases hs : splitN3 content.data with
    | nil => simp [parseArticleFile, hread, hs]
    | cons x t =>
      cases t with
      | nil => simp [parseArticleFile, hread, hs]
      | cons y t2 =>
        cases t2 with
        | nil => simp [parseArticleFile, hread, hs]
        | cons z t3 =>
          rw [hs] at hlt
          simp at hlt
          omega
  · intro md te hlt
    cases hs : splitN3 content.data with
    | nil => simp [processMarkdownFile, hs]
    | cons x t =>
      cases t with
      | nil => simp [processMarkdownFile, hs]
      | cons y t2 =>
        cases t2 with
        | nil => simp [processMarkdownFile, hs]
        | cons z t3 =>
          rw [hs] at hlt
          simp at hlt
          omega
  · intro art hok
    cases hs : splitN3 content.data with
    | nil => simp [parseArticleFile, hread, hs] at hok
    | cons x t =>
      cases t with
      | nil => simp [parseArticleFile, hread, hs] at hok
      | cons y t2 =>
        cases t2 with
        | nil => simp [parseArticleFile, hread, hs] at hok
        | cons z t3 =>
          cases t3 with
          | cons w t4 => simp [parseArticleFile, hread, hs] at hok
          | nil =>
            refine ⟨x, y, z, rfl, ?_⟩
            simp only [parseArticleFile, hread, hs] at hok
            cases hu : unmarshalFM y with
            | error e => rw [hu] at hok; simp at hok
            | ok fm =>
              rw [hu] at hok
              simp only [Except.ok.injEq] at hok
              rw [← hok]

/-- Witness for C7 at a concrete input: a bare markdown file with no `"---"`
blocks is rejected with the malformed-front-matter error. -/
theorem parseArticleFile_two_delimiters_witness :
    parseArticleFile [⟨"p", "/p"⟩] [("/p/content/a.md", "plain markdown, no delimiters")]
      "p" "a.md" = .error ("invalid front matter format in " ++ "a.md") :=
  (parseArticleFile_requires_two_delimiters [⟨"p", "/p"⟩]
    [("/p/content/a.md", "plain markdown, no delimiters")] "p" "a.md"
    "plain markdown, no delimiters" (by decide)).2.1 (by decide)

/-- C10: the document split keys on the first two occurrences of the
substring `"---"` anywhere in the text, not on delimiter lines at fixed
positions: for every delimiter-free prefix the split returns that prefix as
the (never inspected) first segment, and a concrete document whose first
`"---"` is preceded by the non-empty prefix `"junk"` parses successfully,
silently discarding the prefix. -/
theorem splitN3_nonempty_prefix_discarded :
    (∀ pre meta rest : List Char, cleanBefore pre → cleanBefore meta →
      splitN3 (pre ++ sepChars ++ (meta ++ sepChars ++ rest)) = [pre, meta, rest]) ∧
    parseArticleFile [⟨"p", "/p"⟩]
      [("/p/content/a.md", "junk---\ntitle: T\ndate: 2024-01-02T03:04:05Z\n---\nbody")]
      "p" "a.md" =
      .ok ⟨⟨"T", "2024-01-02T03:04:05Z"⟩, "body", "a.md"⟩ :=
  ⟨fun _ _ rest h1 h2 => splitN3_append h1 h2, by decide⟩

/-- Witness for C10 at concrete segments. -/
theorem splitN3_nonempty_prefix_discarded_witness :
    splitN3 ("ab".data ++ sepChars ++ ("cd".data ++ sepChars ++ "ef".data)) =
      ["ab".data, "cd".data, "ef".data] :=
  splitN3_nonempty_prefix_discarded.1 "ab".data "cd".data "ef".data
    (by decide) (by decide)

/-- The per-file output mapping of the content walk, as the spec states it:
a file whose (base) name ends in the case-sensitive suffix `".md"` goes
through the markdown pipeline and lands at the mirrored path with `".md"`
replaced by `".html"`; any other file is copied byte-for-byte to its
mirrored path. -/
def walkOut (pmf : String → Except String String) (g : String × String) : String × String :=
  if hasSuffixStr (goBase g.1) ".md" then
    (trimSuffixStr g.1 ".md" ++ ".html", ((pmf g.2).toOption).getD "")
  else g

/-- C9: over any list of regular files, the content walk (a) when every
`.md` file processes successfully, outputs exactly the per-file mapping
`walkOut` — `.md` files (case-sensitive suffix of the base name) rendered and
written to the mirrored `.html` path, all other files copied byte-for-byte —
and (b) when some `.md` file fails, the first failing file's error aborts the
walk: the result carries the outputs of the files before it and the error,
independent of everything after it. -/
theorem buildWalk_dispatch_and_short_circuit
    (pmf : String → Except String String) :
    (∀ files : List (String × String),
      (∀ g ∈ files, hasSuffixStr (goBase g.1) ".md" = true → ∃ v, pmf g.2 = .ok v) →
      buildWalk pmf files = (files.map (walkOut pmf), none)) ∧
    (∀ (pre : List (String × String)) (f : String × String)
        (post : List (String × String)) (e : String),
      (∀ g ∈ pre, hasSuffixStr (goBase g.1) ".md" = true → ∃ v, pmf g.2 = .ok v) →
      hasSuffixStr (goBase f.1) ".md" = true →
      pmf f.2 = .error e →
      buildWalk pmf (pre ++ f :: post) = (pre.map (walkOut pmf), some e)) := by
  constructor
  · intro files
    induction files with
    | nil => intro _; rfl
    | cons g rest ih =>
      intro h
      cases g with
      | mk p c =>
        by_cases hmd : hasSuffixStr (goBase p) ".md" = true
        · obtain ⟨v, hv⟩ := h (p, c) (List.mem_cons_self _ _) hmd
          rw [buildWalk, if_pos hmd, hv]
          rw [ih (fun g hg => h g (List.mem_cons_of_mem _ hg))]
          simp [walkOut, hmd, hv, Except.toOption]
        · rw [buildWalk, if_neg hmd]
          rw [ih (fun g hg => h g (List.mem_cons_of_mem _ hg))]
          simp [walkOut, hmd]
  · intro pre f post e hpre hmd herr
    induction pre with
    | nil =>
      cases f with
      | mk p c =>
        simp only [List.nil_append, List.map_nil]
        rw [buildWalk, if_pos hmd, herr]
    | cons g rest ih =>
      cases g with
      | mk p c =>
        have hg := hpre (p, c) (List.mem_cons_self _ _)
        by_cases hmd2 : hasSuffixStr (goBase p) ".md" = true
        · obtain ⟨v, hv⟩ := hg hmd2
          show buildWalk pmf ((p, c) :: (rest ++ f :: post)) = _
          rw [buildWalk, if_pos hmd2, hv]
          rw [ih (fun g hg2 => hpre g (List.mem_cons_of_mem _ hg2))]
          simp [walkOut, hmd2, hv, Except.toOption]
        · show buildWalk pmf ((p, c) :: (rest ++ f :: post)) = _
          rw [buildWalk, if_neg hmd2]
          rw [ih (fun g hg2 => hpre g (List.mem_cons_of_mem _ hg2))]
          simp [walkOut, hmd2]

/-- Witness for C9 at a concrete renderer, template, and file lists: a
successful walk producing the mapped outputs, and a failing walk aborted at
the first bad `.md` file with the later file untouched. -/
theorem buildWalk_dispatch_witness :
    buildWalk (processMarkdownFile (fun s => s) (fun _ h => .ok ("T" ++ h)))
      [("a.md", "---\nk: v\n---\nA"), ("img.png", "PNG")] =
      ([("a.html", "T\nA"), ("img.png", "PNG")], none) ∧
    buildWalk (processMarkdownFile (fun s => s) (fun _ h => .ok ("T" ++ h)))
      [("img.png", "PNG"), ("bad.md", "no delimiters"), ("later.md", "---\nk: v\n---\nB")] =
      ([("img.png", "PNG")], some "invalid front matter") := by
  constructor
  · have h := (buildWalk_dispatch_and_short_circuit
      (processMarkdownFile (fun s => s) (fun _ h => .ok ("T" ++ h)))).1
      [("a.md", "---\nk: v\n---\nA"), ("img.png", "PNG")]
      (by
        intro g hg hmd
        simp only [List.mem_cons, List.not_mem_nil, or_false] at hg
        rcases hg with rfl | rfl
        · exact ⟨"T\nA", by decide⟩
        · exact absurd hmd (by decide))
    exact h.trans (by decide)
  · have h := (buildWalk_dispatch_and_short_circuit
      (processMarkdownFile (fun s => s) (fun _ h => .ok ("T" ++ h)))).2
      [("img.png", "PNG")] ("bad.md", "no delimiters")
      [("later.md", "---\nk: v\n---\nB")] "invalid front matter"
      (by
        intro g hg hmd
        simp only [List.mem_cons, List.not_mem_nil, or_false] at hg
        rcases hg with rfl
        exact absurd hmd (by decide))
      (by decide) (by decide)
    exact h.trans (by decide)

/-- C3 (amended): when the project resolves, the template loads and parses,
and the content walk succeeds, but `themes/default/static` does not exist,
`BuildProject` returns the `lstat` error of the static walk instead of
skipping the missing directory. -/
theorem buildProject_missing_static_propagates
    (mdRender : String → String) (tmplParse : String → Except String String)
    (tmplExec : String → List (String × String) → String → Except String String)
    (ps : List Proj) (fs : FS) (projectName : String) (proj : Proj)
    (tsrc tmpl : String) (outs : List (String × String))
    (hfind : findProjectByName ps projectName = some proj)
    (htpath : fsLookup fs.files
      (goJoin3 (goJoin3 proj.path "themes" "default") "templates" "page.html") = some tsrc)
    (hparse : tmplParse tsrc = .ok tmpl)
    (hcontent : existsPath fs (goJoin2 proj.path "content") = true)
    (hwalk : buildWalk (processMarkdownFile mdRender (tmplExec tmpl))
      (filesUnder fs (goJoin2 proj.path "content")) = (outs, none))
    (hstatic : existsPath fs (goJoin2 (goJoin3 proj.path "themes" "default") "static") = false) :
    buildProject mdRender tmplParse tmplExec ps fs projectName =
      .error (lstatError (goJoin2 (goJoin3 proj.path "themes" "default") "static")) := by
  simp only [buildProject, hfind, htpath, hparse, hcontent, hwalk, if_true,
    eq_self_iff_true]
  unfold copyStaticAssets
  rw [if_neg (by simp [hstatic])]

/-- Witness for C3 (amended) at the concrete project of the counterexample. -/
theorem buildProject_missing_static_witness :
    buildProject (fun s => s) (fun s => .ok s) (fun t _ h => .ok (t ++ h))
      [⟨"p", "/p"⟩]
      ⟨["/p", "/p/content"],
       [("/p/themes/default/templates/page.html", "T"),
        ("/p/content/hello.md", "---\ntitle: H\n---\nhi")]⟩ "p" =
      .error "lstat /p/themes/default/static: no such file or directory" := by
  have h := buildProject_missing_static_propagates (fun s => s) (fun s => .ok s)
    (fun t _ h => .ok (t ++ h)) [⟨"p", "/p"⟩]
    ⟨["/p", "/p/content"],
     [("/p/themes/default/templates/page.html", "T"),
      ("/p/content/hello.md", "---\ntitle: H\n---\nhi")]⟩ "p" ⟨"p", "/p"⟩ "T" "T"
    [("hello.html", "T\nhi")]
    (by decide) (by decide) (by decide) (by decide) (by decide) (by decide)
  exact h.trans (by decide)

/-- C4 (amended): `ParseArticleFile` performs no required-field validation:
when the file's front matter parses as YAML but contains neither a `title`
nor a `date` key, the parse succeeds and returns an Article whose title and
publish date are the zero values, with the body trimmed as usual. -/
theorem parseArticleFile_defaults_missing_fields
    (ps : List Proj) (fs : FileMap) (projectName filePath : String)
    (proj : Proj) (body : String)
    (hfind : findProjectByName ps projectName = some proj)
    (hfile : fsLookup fs (goJoin3 proj.path "content" filePath) =
      some ("---\nfoo: 1\n---" ++ body)) :
    parseArticleFile ps fs projectName filePath =
      .ok ⟨⟨"", ""⟩, String.mk (trimSpaceL body.data), filePath⟩ := by
  have hdata : ("---\nfoo: 1\n---" ++ body).data =
      [] ++ sepChars ++ ("\nfoo: 1\n".data ++ sepChars ++ body.data) := by
    rw [String.data_append]
    rfl
  have hsplit : splitN3 (("---\nfoo: 1\n---" ++ body).data) =
      [[], "\nfoo: 1\n".data, body.data] := by
    rw [hdata]
    exact splitN3_append (by decide) (by decide)
  have hum : unmarshalFM "\nfoo: 1\n".data = .ok ⟨"", ""⟩ := by decide
  simp only [parseArticleFile, readFileContent, hfind, hfile, hsplit, hum]

/-- Witness for C4 (amended) at a concrete file. -/
theorem parseArticleFile_defaults_missing_fields_witness :
    parseArticleFile [⟨"p", "/p"⟩] [("/p/content/b.md", "---\nfoo: 1\n---\n\nBody here")]
      "p" "b.md" = .ok ⟨⟨"", ""⟩, "Body here", "b.md"⟩ := by
  have h := parseArticleFile_defaults_missing_fields [⟨"p", "/p"⟩]
    [("/p/content/b.md", "---\nfoo: 1\n---\n\nBody here")] "p" "b.md" ⟨"p", "/p"⟩
    "\n\nBody here" (by decide) (by decide)
  exact h.trans (by decide)

lemma intercalate_pair (s a b : List Char) : List.intercalate s [a, b] = a ++ s ++ b := by
  simp [List.intercalate, List.intersperse]

lemma goJoin2_simple (x y : String)
    (hx1 : x.data ≠ []) (hx2 : '/' ∉ x.data) (hx3 : x.data ≠ ['.'])
    (hx4 : x.data ≠ ['.', '.'])
    (hy1 : y.data ≠ []) (hy2 : '/' ∉ y.data) (hy3 : y.data ≠ ['.'])
    (hy4 : y.data ≠ ['.', '.']) :
    goJoin2 x y = x ++ "/" ++ y := by
  have hxe : (x == "") = false :=
    beq_eq_false_iff_ne.mpr (fun h => hx1 (by rw [h]))
  have hye : (y == "") = false :=
    beq_eq_false_iff_ne.mpr (fun h => hy1 (by rw [h]))
  unfold goJoin2 goJoinList
  rw [show List.filter (fun s => !(s == "")) [x, y] = [x, y] by
    simp [List.filter, hxe, hye]]
  rw [if_neg (by simp)]
  simp only [List.map_cons, List.map_nil]
  rw [intercalate_pair]
  obtain ⟨c, t, hct⟩ : ∃ c t, x.data = c :: t := by
    cases hxd : x.data with
    | nil => exact absurd hxd hx1
    | cons c t => exact ⟨c, t, rfl⟩
  have hl : x.data ++ ['/'] ++ y.data = c :: (t ++ '/' :: y.data) := by
    rw [hct]; simp
  rw [hl]
  have hcs : (c == '/') = false := by
    apply beq_eq_false_iff_ne.mpr
    intro hc
    exact hx2 (hc ▸ hct ▸ List.mem_cons_self c t)
  unfold goCleanL
  simp only [hcs]
  have hsplit : splitChar '/' (c :: (t ++ '/' :: y.data)) =
      (c :: t) :: splitChar '/' y.data := by
    have h2 : ('/' : Char) ∉ c :: t := hct ▸ hx2
    have := splitChar_append '/' y.data h2
    simpa using this
  rw [hsplit, splitChar_no hy2]
  simp only [List.foldl_cons, List.foldl_nil]
  rw [show cleanStep false [] (c :: t) = [c :: t] by
    rw [cleanStep,
      if_neg (by
        simp only [List.cons_ne_nil, false_or]
        intro heq
        exact hx3 (hct.trans heq)),
      if_neg (fun heq => hx4 (hct.trans heq))]
  ]
  rw [show cleanStep false [c :: t] y.data = [y.data, c :: t] by
    rw [cleanStep,
      if_neg (by
        intro hor
        rcases hor with h | h
        · exact hy1 h
        · exact hy3 h),
      if_neg (fun heq => hy4 heq)]]
  simp only [List.reverse_cons, List.reverse_nil, List.nil_append, List.singleton_append]
  rw [if_neg (by simp)]
  rw [if_neg (by simp)]
  rw [intercalate_pair]
  have hfinal : (x ++ "/" ++ y).data = (c :: t) ++ ['/'] ++ y.data := by
    rw [String.data_append, String.data_append, hct]
  calc String.mk ((c :: t) ++ ['/'] ++ y.data) = String.mk ((x ++ "/" ++ y).data) := by
        rw [hfinal]
    _ = x ++ "/" ++ y := rfl

lemma slug_md_ne_nil (ttl : String) : (slugify ttl ++ ".md").data ≠ [] := by
  rw [String.data_append]
  simp

lemma slug_md_no_slash (ttl : String) : '/' ∉ (slugify ttl ++ ".md").data := by
  rw [String.data_append]
  intro h
  rcases List.mem_append.mp h with h | h
  · have h2 : '/' ∈ slugifyL ttl.data := h
    have := mem_slugifyL h2
    exact absurd this (by decide)
  · exact absurd h (by decide)

lemma slug_md_ne_dot (ttl : String) : (slugify ttl ++ ".md").data ≠ ['.'] := by
  rw [String.data_append]
  intro h
  have := congrArg List.length h
  simp at this

lemma slug_md_ne_ddot (ttl : String) : (slugify ttl ++ ".md").data ≠ ['.', '.'] := by
  rw [String.data_append]
  intro h
  have := congrArg List.length h
  simp at this

/-- The `posts/<slug>.md` join evaluates to plain string concatenation. -/
lemma goJoin2_posts_slug (ttl : String) :
    goJoin2 "posts" (slugify ttl ++ ".md") = "posts/" ++ slugify ttl ++ ".md" := by
  rw [goJoin2_simple "posts" (slugify ttl ++ ".md") (by decide) (by decide)
    (by decide) (by decide) (slug_md_ne_nil ttl) (slug_md_no_slash ttl)
    (slug_md_ne_dot ttl) (slug_md_ne_ddot ttl)]
  rfl

/-- C6 (amended): `SaveArticle` computes its returned `finalRelativePath`
exactly as claimed, except that the original filename's slug strips only a
trailing `".md"` suffix (not an arbitrary extension): an empty slug fails
with the validation error and leaves the file store untouched; an empty
`originalRelativePath` yields `posts/<newSlug>.md`; otherwise a slug
differing from `TrimSuffix(Base(original), ".md")` renames into the
original's directory, and an equal slug keeps `originalRelativePath`. -/
theorem saveArticle_finalPath_cases (ps : List Proj) (fs : FileMap)
    (projectName : String) (a : Article) (orig : String) :
    (slugify a.frontMatter.title = "" →
      saveArticle ps fs projectName a orig =
        (.error "article title cannot be empty or invalid", fs)) ∧
    (∀ p fs1, saveArticle ps fs projectName a orig = (.ok p, fs1) →
      p = if orig = "" then "posts/" ++ slugify a.frontMatter.title ++ ".md"
          else if slugify a.frontMatter.title ≠ trimSuffixStr (goBase orig) ".md" then
            goJoin2 (goDir orig) (slugify a.frontMatter.title ++ ".md")
          else orig) := by
  constructor
  · intro h
    simp only [saveArticle]
    rw [if_pos h]
  · intro p fs1 hsave
    by_cases hslug : slugify a.frontMatter.title = ""
    · simp only [saveArticle] at hsave
      rw [if_pos hslug] at hsave
      simp at hsave
    · simp only [saveArticle] at hsave
      rw [if_neg hslug] at hsave
      have hp : p = saveFinalPath a.frontMatter.title orig := by
        cases hw : writeArticleFile ps fs projectName
            { a with filePath := saveFinalPath a.frontMatter.title orig } with
        | error e =>
          simp only [hw] at hsave
          exact absurd (congrArg Prod.fst hsave) (by simp)
        | ok fs2 =>
          simp only [hw] at hsave
          by_cases hc : orig ≠ "" ∧ orig ≠ saveFinalPath a.frontMatter.title orig
          · rw [if_pos hc] at hsave
            cases ps with
            | nil => simp at hsave
            | cons p0 rest =>
              simp only [Prod.mk.injEq, Except.ok.injEq] at hsave
              exact hsave.1.symm
          · rw [if_neg hc] at hsave
            simp only [Prod.mk.injEq, Except.ok.injEq] at hsave
            exact hsave.1.symm
      rw [hp]
      simp only [saveFinalPath]
      by_cases ho : orig = ""
      · rw [if_pos ho, if_pos ho]
        exact goJoin2_posts_slug a.frontMatter.title
      · rw [if_neg ho, if_neg ho]

/-- Witness for C6 (amended): an all-punctuation title slugs to the empty
string, and the save fails with the validation error leaving the file store
untouched. -/
theorem saveArticle_finalPath_cases_witness :
    saveArticle [⟨"p", "/p"⟩] [] "p" ⟨⟨"!!!", "d"⟩, "b", ""⟩ "x.md" =
      (.error "article title cannot be empty or invalid", []) :=
  (saveArticle_finalPath_cases [⟨"p", "/p"⟩] [] "p" ⟨⟨"!!!", "d"⟩, "b", ""⟩ "x.md").1
    (by decide)

/-! ### The plain-scalar subset for the yaml round trip (claim C5)

`yaml.v3` emits a string field as an unquoted plain scalar when no quoting is
required; `plainScalar` carves out a sufficient ASCII subset (letters, digits,
space, `-!.,`, starting alphanumeric, not ending in a space), and
`dateScalar` the shape of RFC3339 timestamp renderings (digits and `-:TZ`,
starting with a digit), on which the `marshalFM`/`unmarshalFM` pair is a
faithful model of the Go library calls. -/

def plainChar (c : Char) : Bool :=
  (65 ≤ c.toNat && c.toNat ≤ 90) || (97 ≤ c.toNat && c.toNat ≤ 122) ||
  (48 ≤ c.toNat && c.toNat ≤ 57) || c.toNat == 32 || c.toNat == 45 ||
  c.toNat == 33 || c.toNat == 46 || c.toNat == 44

def plainScalar (s : String) : Bool :=
  (match s.data with
   | c :: _ => (65 ≤ c.toNat && c.toNat ≤ 90) || (97 ≤ c.toNat && c.toNat ≤ 122) ||
               (48 ≤ c.toNat && c.toNat ≤ 57)
   | [] => false) &&
  s.data.all plainChar &&
  (match s.data.getLast? with
   | some c => !(c.toNat == 32)
   | none => true)

def dateChar (c : Char) : Bool :=
  (48 ≤ c.toNat && c.toNat ≤ 57) || c.toNat == 45 || c.toNat == 58 ||
  c.toNat == 84 || c.toNat == 90

def dateScalar (s : String) : Bool :=
  (match s.data with
   | c :: _ => 48 ≤ c.toNat && c.toNat ≤ 57
   | [] => false) &&
  s.data.all dateChar

lemma trimSpace_plain {t : String} (h : plainScalar t = true) :
    trimSpaceL (' ' :: t.data) = t.data := by
  unfold plainScalar at h
  simp only [Bool.and_eq_true] at h
  obtain ⟨⟨hhead, hall⟩, hlast⟩ := h
  cases htd : t.data with
  | nil => rw [htd] at hhead; simp at hhead
  | cons c rest =>
    rw [htd] at hhead hall hlast
    unfold trimSpaceL trimBy
    rw [List.dropWhile_cons, if_pos (by decide)]
    rw [List.dropWhile_cons, if_neg (by
      simp only [isWsChar, Bool.or_eq_true, Bool.and_eq_true, decide_eq_true_eq,
        beq_iff_eq] at hhead ⊢
      omega)]
    rw [dropWhile_eq_self_of_head (fun d ds hd => by
      have hgl : (c :: rest).getLast? = some d := by
        rw [← List.head?_reverse, hd]; rfl
      have hmem : d ∈ c :: rest := by
        rw [← List.mem_reverse, hd]
        exact List.mem_cons_self _ _
      have hpd : plainChar d = true := List.all_eq_true.mp hall d hmem
      rw [hgl] at hlast
      apply Bool.eq_false_iff.mpr
      simp only [plainChar, isWsChar, Bool.or_eq_true, Bool.and_eq_true,
        decide_eq_true_eq, beq_iff_eq, Bool.not_eq_true', beq_eq_false_iff_ne,
        ne_eq] at hpd hlast ⊢
      omega)]
    exact List.reverse_reverse _

lemma trimSpace_date {d : String} (h : dateScalar d = true) :
    trimSpaceL (' ' :: d.data) = d.data := by
  unfold dateScalar at h
  simp only [Bool.and_eq_true] at h
  obtain ⟨hhead, hall⟩ := h
  cases htd : d.data with
  | nil => rw [htd] at hhead; simp at hhead
  | cons c rest =>
    rw [htd] at hhead hall
    unfold trimSpaceL trimBy
    rw [List.dropWhile_cons, if_pos (by decide)]
    rw [List.dropWhile_cons, if_neg (by
      simp only [isWsChar, Bool.or_eq_true, Bool.and_eq_true, decide_eq_true_eq,
        beq_iff_eq] at hhead ⊢
      omega)]
    rw [dropWhile_eq_self_of_head (fun e ds hd => by
      have hmem : e ∈ c :: rest := by
        rw [← List.mem_reverse, hd]
        exact List.mem_cons_self _ _
      have hpd : dateChar e = true := List.all_eq_true.mp hall e hmem
      apply Bool.eq_false_iff.mpr
      simp only [dateChar, isWsChar, Bool.or_eq_true, Bool.and_eq_true,
        decide_eq_true_eq, beq_iff_eq, ne_eq] at hpd ⊢
      omega)]
    exact List.reverse_reverse _

lemma applyFMLine_empty (fm : ArticleFrontMatter) : applyFMLine fm [] = .ok fm := rfl

lemma applyFMLine_title (fm : ArticleFrontMatter) (t : String) (h : plainScalar t = true) :
    applyFMLine fm ("title: ".data ++ t.data) = .ok { fm with title := t } := by
  have hws : (("title: ".data ++ t.data).all isWsChar) = false := by
    rw [show "title: ".data ++ t.data = 't' :: ("itle: ".data ++ t.data) from rfl]
    simp [List.all_cons, show isWsChar 't' = false from by decide]
  have hfs : firstSplit ':' ("title: ".data ++ t.data) = some ("title".data, ' ' :: t.data) := by
    rw [show "title: ".data ++ t.data = "title".data ++ ':' :: (' ' :: t.data) from rfl]
    exact firstSplit_append ':' (' ' :: t.data) (by decide)
  have hfs2 : firstSplit ':' ('t' :: 'i' :: 't' :: 'l' :: 'e' :: ':' :: ' ' :: t.data) =
      some (['t', 'i', 't', 'l', 'e'], ' ' :: t.data) := hfs
  simp [applyFMLine, isWsChar, hfs2, trimSpace_plain h]

lemma applyFMLine_date (fm : ArticleFrontMatter) (d : String) (h : dateScalar d = true) :
    applyFMLine fm ("date: ".data ++ d.data) = .ok { fm with date := d } := by
  have hws : (("date: ".data ++ d.data).all isWsChar) = false := by
    rw [show "date: ".data ++ d.data = 'd' :: ("ate: ".data ++ d.data) from rfl]
    simp [List.all_cons, show isWsChar 'd' = false from by decide]
  have hfs : firstSplit ':' ("date: ".data ++ d.data) = some ("date".data, ' ' :: d.data) := by
    rw [show "date: ".data ++ d.data = "date".data ++ ':' :: (' ' :: d.data) from rfl]
    exact firstSplit_append ':' (' ' :: d.data) (by decide)
  have hfs2 : firstSplit ':' ('d' :: 'a' :: 't' :: 'e' :: ':' :: ' ' :: d.data) =
      some (['d', 'a', 't', 'e'], ' ' :: d.data) := hfs
  simp [applyFMLine, isWsChar, hfs2, trimSpace_date h]

lemma unmarshal_marshal (fm : ArticleFrontMatter)
    (ht : plainScalar fm.title = true) (hd : dateScalar fm.date = true) :
    unmarshalFM ('\n' :: (marshalFM fm).data) = .ok fm := by
  have hT : ('\n' : Char) ∉ ("title: ".data ++ fm.title.data) := by
    intro hm
    rcases List.mem_append.mp hm with hm | hm
    · exact absurd hm (by decide)
    · have hp := List.all_eq_true.mp (by
        unfold plainScalar at ht
        simp only [Bool.and_eq_true] at ht
        exact ht.1.2) _ hm
      exact absurd hp (by decide)
  have hD : ('\n' : Char) ∉ ("date: ".data ++ fm.date.data) := by
    intro hm
    rcases List.mem_append.mp hm with hm | hm
    · exact absurd hm (by decide)
    · have hp := List.all_eq_true.mp (by
        unfold dateScalar at hd
        simp only [Bool.and_eq_true] at hd
        exact hd.2) _ hm
      exact absurd hp (by decide)
  have hshape : ('\n' :: (marshalFM fm).data) =
      '\n' :: (("title: ".data ++ fm.title.data) ++ '\n' ::
        (("date: ".data ++ fm.date.data) ++ '\n' :: ([] : List Char))) := by
    simp only [marshalFM, String.data_append, List.append_assoc]
    rfl
  rw [hshape, unmarshalFM]
  rw [show splitChar '\n' ('\n' :: (("title: ".data ++ fm.title.data) ++ '\n' ::
        (("date: ".data ++ fm.date.data) ++ '\n' :: ([] : List Char)))) =
      [[], "title: ".data ++ fm.title.data, "date: ".data ++ fm.date.data, []] by
    rw [splitChar, if_pos (by decide),
      splitChar_append '\n' (("date: ".data ++ fm.date.data) ++ '\n' :: ([] : List Char)) hT,
      splitChar_append '\n' ([] : List Char) hD]
    rfl]
  have hbind : ∀ (x : ArticleFrontMatter)
      (f : ArticleFrontMatter → Except String ArticleFrontMatter),
      (Except.ok x >>= f) = f x := fun _ _ => rfl
  have s2 : applyFMLine ⟨"", ""⟩ (['t', 'i', 't', 'l', 'e', ':', ' '] ++ fm.title.data) =
      Except.ok ⟨fm.title, ""⟩ := applyFMLine_title ⟨"", ""⟩ fm.title ht
  have s3 : applyFMLine ⟨fm.title, ""⟩ (['d', 'a', 't', 'e', ':', ' '] ++ fm.date.data) =
      Except.ok ⟨fm.title, fm.date⟩ := applyFMLine_date ⟨fm.title, ""⟩ fm.date hd
  simp only [List.foldlM, applyFMLine_empty, hbind, s2, s3]
  rfl

lemma fsLookup_write (fs : FileMap) (k v : String) :
    fsLookup (fsWrite fs k v) k = some v := by
  simp [fsLookup, fsWrite, List.lookup]

lemma trimSpace_cons_ws (c : Char) (l : List Char) (h : isWsChar c = true) :
    trimSpaceL (c :: l) = trimSpaceL l := by
  unfold trimSpaceL trimBy
  rw [List.dropWhile_cons, if_pos h]

/-- C5 (amended): for every article whose title is a plain YAML scalar in the
modelled subset, whose date is an RFC3339-shaped scalar, and whose serialized
front matter (preceded by the newline of the opening delimiter) contains no
occurrence of `"---"`, a successful `SaveArticle` with empty original path
followed by `ParseArticleFile` at the returned path yields exactly the
article's front matter and its body after whitespace trimming. -/
theorem saveArticle_parse_roundtrip (ps : List Proj) (fs : FileMap)
    (projectName : String) (a : Article) (p : String) (fs1 : FileMap)
    (ht : plainScalar a.frontMatter.title = true)
    (hd : dateScalar a.frontMatter.date = true)
    (hsep : containsSep (('\n' :: (marshalFM a.frontMatter).data) ++ ['-', '-']) = false)
    (hsave : saveArticle ps fs projectName a "" = (.ok p, fs1)) :
    parseArticleFile ps fs1 projectName p =
      .ok ⟨a.frontMatter, String.mk (trimSpaceL a.body.data), p⟩ := by
  by_cases hslug : slugify a.frontMatter.title = ""
  · simp only [saveArticle] at hsave
    rw [if_pos hslug] at hsave
    exact absurd (congrArg Prod.fst hsave) (by simp)
  · simp only [saveArticle] at hsave
    rw [if_neg hslug] at hsave
    cases hfind : findProjectByName ps projectName with
    | none =>
      simp only [writeArticleFile, writeFileContent, hfind] at hsave
      exact absurd (congrArg Prod.fst hsave) (by simp)
    | some proj =>
      simp only [writeArticleFile, writeFileContent, hfind] at hsave
      rw [if_neg (by simp)] at hsave
      simp only [Prod.mk.injEq, Except.ok.injEq] at hsave
      obtain ⟨hp, hfs1⟩ := hsave
      subst hp
      subst hfs1
      have hcd : (articleContent
          { frontMatter := a.frontMatter, body := a.body,
            filePath := saveFinalPath a.frontMatter.title "" }).data =
          [] ++ sepChars ++ (('
' :: (marshalFM a.frontMatter).data) ++ sepChars ++
            ('
' :: '
' :: a.body.data)) := by
        simp [articleContent, String.data_append, List.append_assoc, sepChars]
      have hsplit : splitN3 ((articleContent
          { frontMatter := a.frontMatter, body := a.body,
            filePath := saveFinalPath a.frontMatter.title "" }).data) =
          [[], '
' :: (marshalFM a.frontMatter).data, '
' :: '
' :: a.body.data] := by
        rw [hcd]
        exact splitN3_append (by intro i hi; simp at hi)
          (cleanBefore_of_no_sub hsep)
      have hum : unmarshalFM ('
' :: (marshalFM a.frontMatter).data) = .ok a.frontMatter :=
        unmarshal_marshal a.frontMatter ht hd
      simp only [parseArticleFile, readFileContent, hfind, fsLookup_write, hsplit, hum]
      rw [trimSpace_cons_ws _ _ (by decide), trimSpace_cons_ws _ _ (by decide)]

/-- Witness for C5 (amended) at a concrete article. -/
theorem saveArticle_parse_roundtrip_witness :
    parseArticleFile [⟨"p", "/p"⟩]
      [("/p/content/posts/my-post.md",
        "---\ntitle: My Post\ndate: 2024-01-02T03:04:05Z\n---\n\n# Hi")]
      "p" "posts/my-post.md" =
      .ok ⟨⟨"My Post", "2024-01-02T03:04:05Z"⟩, "# Hi", "posts/my-post.md"⟩ := by
  have h := saveArticle_parse_roundtrip [⟨"p", "/p"⟩] [] "p"
    ⟨⟨"My Post", "2024-01-02T03:04:05Z"⟩, "# Hi", ""⟩ "posts/my-post.md"
    [("/p/content/posts/my-post.md",
      "---\ntitle: My Post\ndate: 2024-01-02T03:04:05Z\n---\n\n# Hi")]
    (by decide) (by decide) (by decide) (by decide)
  exact h.trans (by decide)
